import Mathlib

/-!
Shallow embedding of the core of `efind.py`: preferred-number series, the
decade approximator (`bisect_lower` / `approximate`), component values
(`ComponentValue`), component candidate generation (`Component`), and the
brute-force `Solver`.

Python floats are modelled as exact rationals (`ℚ`): the algorithms are
specified over real arithmetic, and every definition below is a direct
transliteration of the corresponding Python code under that reading.
`10**floor(log10 x)` becomes `(10 : ℚ) ^ Int.log 10 x`.
-/

namespace EFind

/-- E3 series from the source, as exact rationals. -/
def E3 : List ℚ := [1, 2.2, 4.7]

/-- E6 series from the source. -/
def E6 : List ℚ := [1, 1.5, 2.2, 3.3, 4.7, 6.8]

/-- E12 series from the source. -/
def E12 : List ℚ := [1, 1.2, 1.5, 1.8, 2.2, 2.7, 3.3, 3.9, 4.7, 5.6, 6.8, 8.2]

/-- E24 series from the source. -/
def E24 : List ℚ :=
  [1, 1.1, 1.2, 1.3, 1.5, 1.6, 1.8, 2.0, 2.2, 2.4, 2.7, 3.0,
   3.3, 3.6, 3.9, 4.3, 4.7, 5.1, 5.6, 6.2, 6.8, 7.5, 8.2, 9.1]

/-- A series configuration valid per the data model: non-empty, first entry
`1.0`, strictly increasing, every entry in `[1, 10)`. -/
def ValidSeries (s : List ℚ) : Prop :=
  s ≠ [] ∧ s.getD 0 0 = 1 ∧ s.Pairwise (· < ·) ∧ ∀ a ∈ s, 1 ≤ a ∧ a < 10

/-- Embedding of Python's `bisect.bisect_left` under its documented contract
for a sorted haystack: the leftmost insertion point of `x` in `a`, i.e. the
number of elements of `a` strictly below `x`. -/
def bisect_left (a : List ℚ) (x : ℚ) : ℕ :=
  (a.filter (fun v => decide (v < x))).length

/-- `bisect_lower` from the source: run `bisect_left`, then step the index
back by one if the located entry (or, past the end, the virtual wraparound
entry `a[i % len]*10`) is strictly greater than `x`.  The result can be `-1`
(Python would then index from the end), so it is an `ℤ`. -/
def bisect_lower (a : List ℚ) (x : ℚ) : ℤ :=
  let i := bisect_left a x
  if (i < a.length ∧ a.getD i 0 > x) ∨ (i ≥ a.length ∧ a.getD (i % a.length) 0 * 10 > x) then
    (i : ℤ) - 1
  else
    (i : ℤ)

/-- `approximate` from the source, on the finite-input path (`ℚ` has no
infinity, so the `x == inf` early return does not arise): decompose a
positive `x` into a series index and a power-of-ten decade. -/
def approximate (x : ℚ) (series : List ℚ) : ℤ × ℚ :=
  let decade : ℚ := 10 ^ Int.log 10 x
  let mantissa := x / decade
  let index := bisect_lower series mantissa
  if index ≥ (series.length : ℤ) then (0, decade * 10)
  else (index, decade)

/-- Python-style list indexing: negative indices count from the end. -/
def pyGet (a : List ℚ) (i : ℤ) : ℚ :=
  if 0 ≤ i then a.getD i.toNat 0 else a.getD (a.length - (-i).toNat) 0

theorem getD_eq_get (l : List ℚ) (i : ℕ) (h : i < l.length) : l.getD i 0 = l[i] := by
  simp [List.getD_eq_getElem?_getD, List.getElem?_eq_getElem h]

theorem pyGet_ofNat (a : List ℚ) (i : ℕ) : pyGet a (i : ℤ) = a.getD i 0 := by
  simp [pyGet]

theorem bisect_left_le_length (a : List ℚ) (x : ℚ) : bisect_left a x ≤ a.length :=
  List.length_filter_le _ _

theorem bisect_left_cons (b : ℚ) (t : List ℚ) (x : ℚ) :
    bisect_left (b :: t) x = (if b < x then 1 else 0) + bisect_left t x := by
  by_cases hb : b < x
  · simp [bisect_left, List.filter_cons, hb]; omega
  · simp [bisect_left, List.filter_cons, hb]

theorem lt_bisect_left_iff (a : List ℚ) (x : ℚ) (ha : a.Pairwise (· < ·)) (i : ℕ)
    (hi : i < a.length) : i < bisect_left a x ↔ a[i] < x := by
  induction a generalizing i with
  | nil => simp at hi
  | cons b t ih =>
    have hbt : ∀ c ∈ t, b < c := (List.pairwise_cons.mp ha).1
    have ht : t.Pairwise (· < ·) := (List.pairwise_cons.mp ha).2
    rw [bisect_left_cons]
    by_cases hb : b < x
    · rw [if_pos hb]
      cases i with
      | zero => simpa using hb
      | succ j =>
        have hj : j < t.length := by simpa using hi
        have hiff := ih ht j hj
        simp only [List.getElem_cons_succ]
        rw [← hiff]
        omega
    · have hble : bisect_left t x = 0 := by
        have hn : ∀ c ∈ t, ¬ (c < x) := fun c hc hcx => hb (lt_trans (hbt c hc) hcx)
        simp only [bisect_left, List.length_eq_zero]
        exact List.filter_eq_nil_iff.mpr (by intro c hc; simpa using hn c hc)
      rw [if_neg hb, hble]
      cases i with
      | zero => simpa using hb
      | succ j =>
        have hj : j < t.length := by simpa using hi
        simp only [List.getElem_cons_succ]
        constructor
        · omega
        · intro h
          exact (hb (lt_trans (hbt _ (List.getElem_mem hj)) h)).elim

theorem log10_eq_of (x : ℚ) (k : ℤ) (hx : 0 < x) (h1 : (10:ℚ)^k ≤ x)
    (h2 : x < (10:ℚ)^(k+1)) : Int.log 10 x = k := by
  have ha : k ≤ Int.log 10 x :=
    (Int.zpow_le_iff_le_log (by norm_num) hx).mp (by push_cast; exact h1)
  have hb : Int.log 10 x < k + 1 :=
    (Int.lt_zpow_iff_log_lt (by norm_num) hx).mp (by push_cast; exact h2)
  omega

theorem ten_zpow_pos (k : ℤ) : (0:ℚ) < 10 ^ k := zpow_pos (by norm_num) k

theorem mantissa_bounds (x : ℚ) (hx : 0 < x) :
    1 ≤ x / 10 ^ Int.log 10 x ∧ x / 10 ^ Int.log 10 x < 10 := by
  have hD : (0:ℚ) < 10 ^ Int.log 10 x := ten_zpow_pos _
  constructor
  · rw [one_le_div hD]
    have := Int.zpow_log_le_self (b := 10) (r := x) (by norm_num) hx
    push_cast at this
    exact this
  · rw [div_lt_iff₀ hD]
    have := Int.lt_zpow_succ_log_self (b := 10) (by norm_num) x
    push_cast at this
    calc x < 10 ^ (Int.log 10 x + 1) := this
    _ = 10 ^ Int.log 10 x * 10 := by rw [zpow_add_one₀ (by norm_num)]
    _ = 10 * 10 ^ Int.log 10 x := by ring

/-- For a valid series and a mantissa in `[1, 10)`, `bisect_lower` lands on
the greatest entry not exceeding the mantissa. -/
theorem bisect_lower_spec (s : List ℚ) (m : ℚ) (hs : ValidSeries s)
    (hm1 : 1 ≤ m) (hm2 : m < 10) :
    ∃ i : ℕ, bisect_lower s m = (i : ℤ) ∧ i < s.length ∧ s.getD i 0 ≤ m ∧
      (i + 1 = s.length ∨ m < s.getD (i+1) 0) := by
  obtain ⟨hne, h0, hsort, hmem⟩ := hs
  have hlen : 0 < s.length := List.length_pos.mpr hne
  set n := bisect_left s m with hn
  have hnle : n ≤ s.length := bisect_left_le_length s m
  by_cases hcase : n < s.length
  · by_cases hgt : s.getD n 0 > m
    · have hn1 : 1 ≤ n := by
        by_contra h
        have h0n : s.getD n 0 = 1 := by
          have hz : n = 0 := by omega
          rw [hz, h0]
        rw [h0n] at hgt
        exact absurd hm1 (not_le.mpr hgt)
      have hcond : (n < s.length ∧ s.getD n 0 > m) ∨
          (n ≥ s.length ∧ s.getD (n % s.length) 0 * 10 > m) :=
        Or.inl ⟨hcase, hgt⟩
      have hres : bisect_lower s m = (n : ℤ) - 1 := by
        unfold bisect_lower; rw [if_pos hcond]
      refine ⟨n - 1, ?_, by omega, ?_, ?_⟩
      · rw [hres]; omega
      · have hlt : n - 1 < n := by omega
        have := (lt_bisect_left_iff s m hsort (n-1) (by omega)).mp hlt
        rw [getD_eq_get s (n-1) (by omega)]
        exact le_of_lt this
      · right
        have hn1' : n - 1 + 1 = n := by omega
        rw [hn1']
        exact hgt
    · push_neg at hgt
      have hnotlt : ¬ (s.getD n 0 < m) := by
        intro h
        rw [getD_eq_get s n hcase] at h
        exact absurd ((lt_bisect_left_iff s m hsort n hcase).mpr h) (lt_irrefl n)
      have heq : s.getD n 0 = m := le_antisymm hgt (not_lt.mp hnotlt)
      have hcond : ¬ ((n < s.length ∧ s.getD n 0 > m) ∨
          (n ≥ s.length ∧ s.getD (n % s.length) 0 * 10 > m)) := by
        push_neg
        constructor
        · intro _; rw [heq]
        · intro h; omega
      have hres : bisect_lower s m = (n : ℤ) := by
        unfold bisect_lower; rw [if_neg hcond]
      refine ⟨n, hres, hcase, le_of_eq heq, ?_⟩
      by_cases hlast : n + 1 = s.length
      · left; exact hlast
      · right
        have hlt : n + 1 < s.length := by omega
        have hpair := List.pairwise_iff_getElem.mp hsort n (n+1) hcase hlt (by omega)
        rw [← getD_eq_get s n hcase, ← getD_eq_get s (n+1) hlt, heq] at hpair
        exact hpair
  · have hnlen : n = s.length := by omega
    have hcond : (n < s.length ∧ s.getD n 0 > m) ∨
        (n ≥ s.length ∧ s.getD (n % s.length) 0 * 10 > m) := by
      right
      refine ⟨by omega, ?_⟩
      have hmod : n % s.length = 0 := by rw [hnlen]; exact Nat.mod_self _
      rw [hmod, h0]
      linarith
    have hres : bisect_lower s m = (n : ℤ) - 1 := by
      unfold bisect_lower; rw [if_pos hcond]
    refine ⟨s.length - 1, ?_, by omega, ?_, ?_⟩
    · rw [hres]; omega
    · have hlt : s.length - 1 < n := by omega
      rw [getD_eq_get s (s.length - 1) (by omega)]
      exact le_of_lt ((lt_bisect_left_iff s m hsort _ (by omega)).mp hlt)
    · left; omega

theorem sorted_getD_le (s : List ℚ) (hsort : s.Pairwise (· < ·)) (i j : ℕ)
    (hij : i ≤ j) (hj : j < s.length) : s.getD i 0 ≤ s.getD j 0 := by
  rcases Nat.lt_or_ge i j with h | h
  · rw [getD_eq_get s i (by omega), getD_eq_get s j hj]
    exact le_of_lt (List.pairwise_iff_getElem.mp hsort i j (by omega) hj h)
  · have : i = j := by omega
    rw [this]

/-- The characterizing output of `approximate` on a valid series: the pair
`(i, 10 ^ Int.log 10 x)` where `s[i]` is the greatest series entry not
exceeding the mantissa.  The wraparound branch is never taken. -/
theorem approximate_spec (s : List ℚ) (x : ℚ) (hs : ValidSeries s) (hx : 0 < x) :
    ∃ i : ℕ, approximate x s = ((i : ℤ), 10 ^ Int.log 10 x) ∧ i < s.length ∧
      s.getD i 0 ≤ x / 10 ^ Int.log 10 x ∧
      (i + 1 = s.length ∨ x / 10 ^ Int.log 10 x < s.getD (i+1) 0) := by
  obtain ⟨hm1, hm2⟩ := mantissa_bounds x hx
  obtain ⟨i, hbl, hilt, hile, hinext⟩ :=
    bisect_lower_spec s (x / 10 ^ Int.log 10 x) hs hm1 hm2
  refine ⟨i, ?_, hilt, hile, hinext⟩
  unfold approximate
  simp only [hbl]
  rw [if_neg (by exact_mod_cast not_le.mpr hilt)]

/-- Uniqueness of the "greatest entry not exceeding m" index. -/
theorem nearest_below_unique (s : List ℚ) (hsort : s.Pairwise (· < ·)) (m : ℚ)
    (i j : ℕ) (hi : i < s.length) (hj : j < s.length)
    (hile : s.getD i 0 ≤ m) (hinext : i + 1 = s.length ∨ m < s.getD (i+1) 0)
    (hjle : s.getD j 0 ≤ m) (hjnext : j + 1 = s.length ∨ m < s.getD (j+1) 0) :
    i = j := by
  by_contra hne
  rcases Nat.lt_or_ge i j with h | h
  · rcases hinext with h1 | h1
    · omega
    · have : s.getD (i+1) 0 ≤ s.getD j 0 := sorted_getD_le s hsort (i+1) j (by omega) hj
      linarith
  · have hji : j < i := by omega
    rcases hjnext with h1 | h1
    · omega
    · have : s.getD (j+1) 0 ≤ s.getD i 0 := sorted_getD_le s hsort (j+1) i (by omega) hi
      linarith

/-- Evaluation rule for `approximate`: checking the defining inequalities at
a candidate answer pins down the result. -/
theorem approximate_eq_of (s : List ℚ) (x : ℚ) (i : ℕ) (k : ℤ) (hs : ValidSeries s)
    (hx : 0 < x) (hk1 : (10:ℚ)^k ≤ x) (hk2 : x < (10:ℚ)^(k+1)) (hi : i < s.length)
    (hle : s.getD i 0 ≤ x / 10^k)
    (hnext : i + 1 = s.length ∨ x / 10^k < s.getD (i+1) 0) :
    approximate x s = ((i : ℤ), 10^k) := by
  have hlog : Int.log 10 x = k := log10_eq_of x k hx hk1 hk2
  obtain ⟨j, happ, hjlt, hjle, hjnext⟩ := approximate_spec s x hs hx
  rw [hlog] at happ hjle hjnext
  have : j = i :=
    nearest_below_unique s hs.2.2.1 (x / 10^k) j i hjlt hi hjle hjnext hle hnext
  rw [happ, this]

theorem validSeries_E3 : ValidSeries E3 := by
  refine ⟨by simp [E3], by simp [E3], ?_, ?_⟩
  · norm_num [E3, List.pairwise_cons]
  · intro a ha
    simp only [E3, List.mem_cons, List.not_mem_nil, or_false] at ha
    rcases ha with h | h | h <;> rw [h] <;> norm_num

set_option maxHeartbeats 1600000 in
theorem validSeries_E24 : ValidSeries E24 := by
  refine ⟨List.cons_ne_nil _ _, List.getD_cons_zero, ?_, ?_⟩
  · norm_num [E24, List.pairwise_cons]
  · intro a ha
    simp only [E24, List.mem_cons, List.not_mem_nil, or_false] at ha
    rcases ha with h | h | h | h | h | h | h | h | h | h | h | h | h | h | h | h
      | h | h | h | h | h | h | h | h <;> rw [h] <;> norm_num

/-- C1 (amended): for every finite `x > 0` and valid series, `approximate`
returns `(index, decade)` with `series[index]* decade ≤ x` and no value of
the form `series[j] * 10^k` strictly between that result and `x` — with no
exception: the wraparound branch never fires, so even when `x` exceeds the
top series entry of its decade the result is the last index of the current
decade, not `(0, decade*10)`. -/
theorem c1_decade_approximator_sound (s : List ℚ) (x : ℚ)
    (hs : ValidSeries s) (hx : 0 < x) :
    ∃ i : ℕ, ∃ d : ℚ, approximate x s = ((i : ℤ), d) ∧ 0 < d ∧ i < s.length ∧
      s.getD i 0 * d ≤ x ∧
      ∀ j : ℕ, ∀ k : ℤ, j < s.length →
        ¬ (s.getD i 0 * d < s.getD j 0 * 10^k ∧ s.getD j 0 * 10^k < x) := by
  obtain ⟨i, happ, hilt, hile, hinext⟩ := approximate_spec s x hs hx
  have hdpos : (0:ℚ) < 10 ^ Int.log 10 x := ten_zpow_pos _
  have hxm : x / 10 ^ Int.log 10 x * 10 ^ Int.log 10 x = x :=
    div_mul_cancel₀ x (ne_of_gt hdpos)
  refine ⟨i, 10 ^ Int.log 10 x, happ, hdpos, hilt, ?_, ?_⟩
  · calc s.getD i 0 * 10 ^ Int.log 10 x
        ≤ x / 10 ^ Int.log 10 x * 10 ^ Int.log 10 x :=
          mul_le_mul_of_nonneg_right hile (le_of_lt hdpos)
    _ = x := hxm
  · rintro j k hj ⟨h1, h2⟩
    have hmem_j : 1 ≤ s.getD j 0 ∧ s.getD j 0 < 10 := by
      rw [getD_eq_get s j hj]; exact hs.2.2.2 _ (List.getElem_mem hj)
    have hmem_i : 1 ≤ s.getD i 0 ∧ s.getD i 0 < 10 := by
      rw [getD_eq_get s i hilt]; exact hs.2.2.2 _ (List.getElem_mem hilt)
    have hkpos : (0:ℚ) < 10^k := ten_zpow_pos k
    have hk_le : k ≤ Int.log 10 x := by
      have hlt : (10:ℚ)^k < 10^(Int.log 10 x + 1) := by
        calc (10:ℚ)^k ≤ s.getD j 0 * 10^k :=
              le_mul_of_one_le_left (le_of_lt hkpos) hmem_j.1
        _ < x := h2
        _ < 10^(Int.log 10 x + 1) := by
            have := Int.lt_zpow_succ_log_self (b := 10) (by norm_num) x
            push_cast at this; exact this
      have := (zpow_lt_zpow_iff_right₀ (by norm_num : (1:ℚ) < 10)).mp hlt
      omega
    have he_le : Int.log 10 x ≤ k := by
      have hlt : (10:ℚ)^(Int.log 10 x) < 10^(k+1) := by
        calc (10:ℚ)^(Int.log 10 x) = 1 * 10^(Int.log 10 x) := (one_mul _).symm
        _ ≤ s.getD i 0 * 10^(Int.log 10 x) :=
            mul_le_mul_of_nonneg_right hmem_i.1 (le_of_lt hdpos)
        _ < s.getD j 0 * 10^k := h1
        _ < 10 * 10^k := mul_lt_mul_of_pos_right hmem_j.2 hkpos
        _ = 10^(k+1) := by rw [zpow_add_one₀ (by norm_num : (10:ℚ) ≠ 0)]; ring
      have := (zpow_lt_zpow_iff_right₀ (by norm_num : (1:ℚ) < 10)).mp hlt
      omega
    have hke : k = Int.log 10 x := le_antisymm hk_le he_le
    rw [hke] at h1 h2
    have h1' : s.getD i 0 < s.getD j 0 := (mul_lt_mul_right hdpos).mp h1
    have h2' : s.getD j 0 < x / 10 ^ Int.log 10 x := (lt_div_iff₀ hdpos).mpr h2
    have hij : i < j := by
      by_contra h
      exact absurd (sorted_getD_le s hs.2.2.1 j i (by omega) hilt) (not_le.mpr h1')
    rcases hinext with h3 | h3
    · omega
    · have : s.getD (i+1) 0 ≤ s.getD j 0 := sorted_getD_le s hs.2.2.1 (i+1) j (by omega) hj
      linarith

/-- Witness for C1 at `x = 3` over the E3 series. -/
theorem c1_witness :
    ValidSeries E3 ∧ (0:ℚ) < 3 ∧
    (∃ i : ℕ, ∃ d : ℚ, approximate 3 E3 = ((i : ℤ), d) ∧ 0 < d ∧ i < E3.length ∧
      E3.getD i 0 * d ≤ 3 ∧
      ∀ j : ℕ, ∀ k : ℤ, j < E3.length →
        ¬ (E3.getD i 0 * d < E3.getD j 0 * 10^k ∧ E3.getD j 0 * 10^k < 3)) :=
  ⟨validSeries_E3, by norm_num,
    c1_decade_approximator_sound E3 3 validSeries_E3 (by norm_num)⟩

/-- Counterexample to C1 as stated: at `x = 9.9` over E3, `x` exceeds the
top of its decade (`4.7 * 1 < 9.9`), yet the result is `(2, 1)` — the last
index of the current decade — not the wraparound `(0, 10)` the claim's
exception clause asserts. -/
theorem c1_counterexample :
    E3.getD (E3.length - 1) 0 * 1 < (99/10 : ℚ) ∧
    approximate (99/10) E3 = ((2:ℤ), (1:ℚ)) ∧
    ((2:ℤ), (1:ℚ)) ≠ ((0:ℤ), (10:ℚ)) := by
  refine ⟨by norm_num [E3], ?_, by simp⟩
  have := approximate_eq_of E3 (99/10) 2 0 validSeries_E3 (by norm_num)
    (by norm_num) (by norm_num) (by simp [E3])
    (by norm_num [E3]) (by simp [E3])
  simpa using this

/-- C9: `approximate` is idempotent on exact series members:
`approximate (series[i] * 10^k) = (i, 10^k)`. -/
theorem c9_approximate_idempotent (s : List ℚ) (i : ℕ) (k : ℤ)
    (hs : ValidSeries s) (hi : i < s.length) :
    approximate (s.getD i 0 * 10^k) s = ((i : ℤ), 10^k) := by
  have hmem : 1 ≤ s.getD i 0 ∧ s.getD i 0 < 10 := by
    rw [getD_eq_get s i hi]; exact hs.2.2.2 _ (List.getElem_mem hi)
  have hkpos : (0:ℚ) < 10^k := ten_zpow_pos k
  have hx : 0 < s.getD i 0 * 10^k := mul_pos (by linarith [hmem.1]) hkpos
  have hdiv : s.getD i 0 * 10^k / 10^k = s.getD i 0 :=
    mul_div_cancel_right₀ _ (ne_of_gt hkpos)
  apply approximate_eq_of s _ i k hs hx
  · exact le_mul_of_one_le_left (le_of_lt hkpos) hmem.1
  · rw [zpow_add_one₀ (by norm_num : (10:ℚ) ≠ 0)]
    calc s.getD i 0 * 10^k < 10 * 10^k := mul_lt_mul_of_pos_right hmem.2 hkpos
    _ = 10^k * 10 := by ring
  · exact hi
  · rw [hdiv]
  · rcases Nat.lt_or_ge (i+1) s.length with h | h
    · right
      rw [hdiv]
      rw [getD_eq_get s i hi, getD_eq_get s (i+1) h]
      exact List.pairwise_iff_getElem.mp hs.2.2.1 i (i+1) hi h (by omega)
    · left; omega

/-- Witness for C9: `approximate (2.2 * 10^(-2)) E3 = (1, 10^(-2))`. -/
theorem c9_witness :
    ValidSeries E3 ∧ (1:ℕ) < E3.length ∧
    approximate (E3.getD 1 0 * 10^(-2 : ℤ)) E3 = ((1 : ℤ), 10^(-2 : ℤ)) :=
  ⟨validSeries_E3, by simp [E3],
    c9_approximate_idempotent E3 1 (-2) validSeries_E3 (by simp [E3])⟩

/-- A value associated with a component (`ComponentValue` in the source).
The source object keeps a back-reference to its `Component`; only the
component's series matters to the value logic, so the embedding stores the
series itself.  `approx` is assigned in `__init__` (the `decade == inf`
branch cannot arise over `ℚ`). -/
structure ComponentValue where
  series : List ℚ
  index : ℤ
  decade : ℚ
  exact : ℚ
  approx : ℚ

/-- `ComponentValue(component, exact=e)`: index and decade come from
`approximate`, then `approx = series[index] * decade`. -/
def ComponentValue.fromExact (series : List ℚ) (e : ℚ) : ComponentValue :=
  let p := approximate e series
  { series := series, index := p.1, decade := p.2,
    exact := e, approx := pyGet series p.1 * p.2 }

/-- `ComponentValue(component, exact=e, index=i, decade=d)`. -/
def ComponentValue.fromIndex (series : List ℚ) (index : ℤ) (decade : ℚ)
    (e : ℚ) : ComponentValue :=
  { series := series, index := index, decade := decade,
    exact := e, approx := pyGet series index * decade }

/-- `ComponentValue(component, index=i, decade=d)`: `exact = approx`. -/
def ComponentValue.fromIndexOnly (series : List ℚ) (index : ℤ)
    (decade : ℚ) : ComponentValue :=
  { series := series, index := index, decade := decade,
    exact := pyGet series index * decade, approx := pyGet series index * decade }

/-- The `error` property: relative error of the approximation. -/
def ComponentValue.error (v : ComponentValue) : ℚ := v.approx / v.exact - 1

/-- `get_other`: if the approximated value undershoots the exact value, the
next series entry (rolling into the next decade at the series end);
otherwise `None`. -/
def ComponentValue.get_other (v : ComponentValue) : Option ComponentValue :=
  if v.approx ≥ v.exact then none
  else
    let p : ℤ × ℚ :=
      if v.index + 1 ≥ (v.series.length : ℤ) then (0, v.decade * 10)
      else (v.index + 1, v.decade)
    some (ComponentValue.fromIndex v.series p.1 p.2 v.exact)

/-- `get_best`: whichever of `self` and `get_other()` has the smaller
squared error; on a tie the code returns the alternative. -/
def ComponentValue.get_best (v : ComponentValue) : ComponentValue :=
  match v.get_other with
  | none => v
  | some other => if v.error^2 < other.error^2 then v else other

/-- Well-formedness of a `ComponentValue` as produced by the generators: a
valid series, an in-range non-negative index, a positive decade, and the
`approx` field consistent with `index`/`decade`. -/
def ComponentValue.WF (v : ComponentValue) : Prop :=
  ValidSeries v.series ∧ 0 ≤ v.index ∧ v.index < (v.series.length : ℤ) ∧
    0 < v.decade ∧ v.approx = pyGet v.series v.index * v.decade

theorem pyGet_nonneg (a : List ℚ) (i : ℤ) (h : 0 ≤ i) :
    pyGet a i = a.getD i.toNat 0 := if_pos h

theorem getD_mem_bounds (s : List ℚ) (hs : ValidSeries s) (i : ℕ)
    (hi : i < s.length) : 1 ≤ s.getD i 0 ∧ s.getD i 0 < 10 := by
  rw [getD_eq_get s i hi]
  exact hs.2.2.2 _ (List.getElem_mem hi)

theorem getD_strict_sorted (s : List ℚ) (hsort : s.Pairwise (· < ·)) (i j : ℕ)
    (hij : i < j) (hj : j < s.length) : s.getD i 0 < s.getD j 0 := by
  rw [getD_eq_get s i (by omega), getD_eq_get s j hj]
  exact List.pairwise_iff_getElem.mp hsort i j (by omega) hj hij

/-- C6: `get_other` returns a value iff `approx < exact`, and any value it
returns has a strictly greater `approx` (next series index, rolling into
the next decade at the series end). -/
theorem c6_get_other_strictly_above (v : ComponentValue) (hw : v.WF) :
    ((v.get_other).isSome ↔ v.approx < v.exact) ∧
    (∀ o ∈ v.get_other, v.approx < o.approx) := by
  obtain ⟨hs, hi0, hilt, hd, happ⟩ := hw
  have hnat : v.index.toNat < v.series.length := by omega
  have hbounds := getD_mem_bounds v.series hs v.index.toNat hnat
  constructor
  · unfold ComponentValue.get_other
    by_cases h : v.approx ≥ v.exact
    · rw [if_pos h]
      simp only [Option.isSome_none, Bool.false_eq_true, false_iff, not_lt]
      exact h
    · rw [if_neg h]
      simp only [Option.isSome_some, true_iff]
      linarith [not_le.mp h]
  · intro o ho
    unfold ComponentValue.get_other at ho
    by_cases h : v.approx ≥ v.exact
    · rw [if_pos h] at ho
      simp at ho
    · rw [if_neg h] at ho
      simp only [Option.mem_def, Option.some.injEq] at ho
      subst ho
      by_cases hwrap : v.index + 1 ≥ (v.series.length : ℤ)
      · rw [if_pos hwrap]
        show v.approx < pyGet v.series (0, v.decade * 10).1 * (0, v.decade * 10).2
        simp only
        rw [pyGet_nonneg _ 0 le_rfl]
        have h0 : v.series.getD (Int.toNat 0) 0 = 1 := hs.2.1
        rw [h0, one_mul, happ, pyGet_nonneg _ _ hi0]
        calc v.series.getD v.index.toNat 0 * v.decade
            < 10 * v.decade := mul_lt_mul_of_pos_right hbounds.2 hd
        _ = v.decade * 10 := by ring
      · rw [if_neg hwrap]
        show v.approx < pyGet v.series (v.index + 1, v.decade).1 * (v.index + 1, v.decade).2
        simp only
        rw [pyGet_nonneg _ _ (by omega), happ, pyGet_nonneg _ _ hi0]
        have htn : (v.index + 1).toNat = v.index.toNat + 1 := by omega
        apply mul_lt_mul_of_pos_right _ hd
        rw [htn]
        exact getD_strict_sorted v.series hs.2.2.1 v.index.toNat (v.index.toNat + 1)
          (by omega) (by omega)

/-- Witness for C6 at the E3 value node `index 1, decade 1, exact 3`
(approx `2.2`). -/
theorem c6_witness :
    (ComponentValue.fromIndex E3 1 1 3).WF ∧
    ((((ComponentValue.fromIndex E3 1 1 3).get_other).isSome ↔
      (ComponentValue.fromIndex E3 1 1 3).approx <
        (ComponentValue.fromIndex E3 1 1 3).exact) ∧
    (∀ o ∈ (ComponentValue.fromIndex E3 1 1 3).get_other,
      (ComponentValue.fromIndex E3 1 1 3).approx < o.approx)) := by
  have hwf : (ComponentValue.fromIndex E3 1 1 3).WF := by
    refine ⟨validSeries_E3, ?_, ?_, ?_, rfl⟩ <;> simp [ComponentValue.fromIndex, E3]
  exact ⟨hwf, c6_get_other_strictly_above _ hwf⟩

/-- C5 (amended): `get_best` returns the node with minimal squared relative
error among `self` and `get_other()`, but on an exact tie it returns the
alternative, not the original. -/
theorem c5_get_best_minimal (v : ComponentValue) :
    (v.get_best.error^2 ≤ v.error^2 ∧
      ∀ o ∈ v.get_other, v.get_best.error^2 ≤ o.error^2) ∧
    (v.get_best = v ∨ v.get_other = some v.get_best) ∧
    (∀ o ∈ v.get_other, v.error^2 = o.error^2 → v.get_best = o) := by
  rcases hgo : v.get_other with _ | o
  · refine ⟨⟨?_, ?_⟩, Or.inl ?_, ?_⟩ <;>
      simp [ComponentValue.get_best, hgo]
  · have hbest_eq : v.get_best = if v.error^2 < o.error^2 then v else o := by
      unfold ComponentValue.get_best
      rw [hgo]
    by_cases herr : v.error^2 < o.error^2
    · rw [if_pos herr] at hbest_eq
      refine ⟨⟨le_of_eq (by rw [hbest_eq]), ?_⟩, Or.inl hbest_eq, ?_⟩
      · intro o' ho'
        simp only [Option.mem_def, Option.some.injEq] at ho'
        subst ho'
        rw [hbest_eq]
        exact le_of_lt herr
      · intro o' ho' htie
        simp only [Option.mem_def, Option.some.injEq] at ho'
        subst ho'
        exact absurd htie (ne_of_lt herr)
    · rw [if_neg herr] at hbest_eq
      refine ⟨⟨by rw [hbest_eq]; exact not_lt.mp herr, ?_⟩,
        Or.inr (by rw [hbest_eq]), ?_⟩
      · intro o' ho'
        simp only [Option.mem_def, Option.some.injEq] at ho'
        subst ho'
        rw [hbest_eq]
      · intro o' ho' _
        simp only [Option.mem_def, Option.some.injEq] at ho'
        subst ho'
        exact hbest_eq

theorem approx_2120_E24 : approximate (21/20 : ℚ) E24 = (0, 1) := by
  have := approximate_eq_of E24 (21/20) 0 0 validSeries_E24 (by norm_num)
    (by norm_num) (by norm_num) (by simp [E24])
    (by norm_num [E24]) (by right; norm_num [E24])
  simpa using this

theorem fromExact_2120 : ComponentValue.fromExact E24 (21/20) =
    ⟨E24, 0, 1, 21/20, 1⟩ := by
  unfold ComponentValue.fromExact
  simp only [approx_2120_E24]
  norm_num [pyGet, E24]

theorem get_other_2120 : (ComponentValue.fromExact E24 (21/20)).get_other =
    some (ComponentValue.fromIndex E24 1 1 (21/20)) := by
  rw [fromExact_2120]
  unfold ComponentValue.get_other
  rw [if_neg (by norm_num), if_neg (by simp [E24])]
  norm_num [ComponentValue.fromIndex]

/-- Counterexample to C5 as stated: at `exact = 1.05` over E24 the nearest
entries `1.0` and `1.1` have exactly opposite relative errors `∓1/21`, a
perfect tie — and `get_best` returns the alternative (`1.1`), not the
original node, contradicting "ties favor the original". -/
theorem c5_counterexample :
    (∃ o, (ComponentValue.fromExact E24 (21/20)).get_other = some o ∧
      (ComponentValue.fromExact E24 (21/20)).error^2 = o.error^2) ∧
    (ComponentValue.fromExact E24 (21/20)).get_best ≠
      ComponentValue.fromExact E24 (21/20) := by
  have herr : (ComponentValue.fromExact E24 (21/20)).error^2 =
      (ComponentValue.fromIndex E24 1 1 (21/20)).error^2 := by
    rw [fromExact_2120]
    norm_num [ComponentValue.error, ComponentValue.fromIndex, pyGet, E24]
  have hbest : (ComponentValue.fromExact E24 (21/20)).get_best =
      ComponentValue.fromIndex E24 1 1 (21/20) := by
    unfold ComponentValue.get_best
    rw [get_other_2120]
    show (if (ComponentValue.fromExact E24 (21/20)).error ^ 2 <
        (ComponentValue.fromIndex E24 1 1 (21/20)).error ^ 2 then
        ComponentValue.fromExact E24 (21/20)
      else ComponentValue.fromIndex E24 1 1 (21/20)) =
      ComponentValue.fromIndex E24 1 1 (21/20)
    rw [if_neg (by rw [herr]; exact lt_irrefl _)]
  refine ⟨⟨_, get_other_2120, herr⟩, ?_⟩
  rw [hbest, fromExact_2120]
  intro h
  have := congrArg ComponentValue.approx h
  norm_num [ComponentValue.fromIndex, pyGet, E24] at this

/-- Which `values` generator `Component.__init__` installed: the dependent
(formula) generator, the free-enumeration generator (with its starting
index/decade), or none at all (the `calculate is None and minimum == 0`
path assigns no generator; using such a component fails only later). -/
inductive ValuesMode where
  | calcMode : ValuesMode
  | iterMode : ℤ → ℚ → ValuesMode
  | unset : ValuesMode
deriving DecidableEq

/-- `Component` (value-logic fields only; the formatting fields of the
source — name parts, unit, digits, field formatter — play no role in the
search and are omitted). -/
structure Component where
  series : List ℚ
  calculate : Option (List ℚ → ℚ)
  min : ℚ
  max : Option ℚ
  use_for_err : Bool
  mode : ValuesMode

/-- `Component.__init__`: the two `assert` statements are modelled as
`none` results; otherwise the component is built and the `values`
generator chosen exactly as in the source (`if calculate: ... elif
minimum > 0: ...` — with neither, no generator is installed). -/
def mkComponent (series : List ℚ) (calculate : Option (List ℚ → ℚ))
    (minimum : ℚ) (maximum : Option ℚ) (use_for_err : Bool) : Option Component :=
  let comp : Component :=
    { series := series, calculate := calculate, min := minimum, max := maximum,
      use_for_err := use_for_err,
      mode :=
        if calculate.isSome then ValuesMode.calcMode
        else if 0 < minimum then
          ValuesMode.iterMode (approximate minimum series).1 (approximate minimum series).2
        else ValuesMode.unset }
  if minimum < 0 then none
  else
    match maximum with
    | some M => if M < minimum then none else some comp
    | none => some comp

/-- Bounds filter applied by `_calculate_values` to every generated value:
`self.min <= v.exact and (self.max is None or self.max >= v.exact)`. -/
def Component.inBounds (c : Component) (v : ComponentValue) : Bool :=
  decide (c.min ≤ v.exact) &&
    (match c.max with
     | none => true
     | some M => decide (M ≥ v.exact))

/-- `Component._calculate_values`: the dependent-parameter generator.  The
inner `values()` generator emits the exact-derived node and its
alternative, then (when the formula over the approximated prefix is
positive and differs in resolved exact value) the approx-derived node and
its alternative; the outer loop filters by bounds.  (`calculate = none`
cannot arise: the source installs this generator only when a formula is
present.) -/
def Component.calculate_values (c : Component) (prev : List ComponentValue) :
    List ComponentValue :=
  match c.calculate with
  | none => []
  | some f =>
    let inner : List ComponentValue :=
      let from_exact_val := f (prev.map (·.exact))
      if from_exact_val ≤ 0 then []
      else
        let from_exact := ComponentValue.fromExact c.series from_exact_val
        let l1 := from_exact :: from_exact.get_other.toList
        let from_approx_val := f (prev.map (·.approx))
        if from_approx_val > 0 then
          let from_approx := ComponentValue.fromExact c.series from_approx_val
          if from_approx.exact ≠ from_exact.exact then
            l1 ++ from_approx :: from_approx.get_other.toList
          else l1
        else l1
    inner.filter c.inBounds

/-- C7: the dependent generator yields nothing when the formula over the
exact prefix is non-positive, and every yielded value satisfies the
configured bounds (out-of-bounds candidates are silently dropped — the
generator returns a plain list, never an error). -/
theorem c7_dependent_generator (c : Component) (f : List ℚ → ℚ)
    (prev : List ComponentValue) (hc : c.calculate = some f) :
    (f (prev.map (·.exact)) ≤ 0 → c.calculate_values prev = []) ∧
    (∀ v ∈ c.calculate_values prev,
      c.min ≤ v.exact ∧ ∀ M ∈ c.max, v.exact ≤ M) := by
  constructor
  · intro hle
    unfold Component.calculate_values
    rw [hc]
    simp only [if_pos hle, List.filter_nil]
  · intro v hv
    unfold Component.calculate_values at hv
    rw [hc] at hv
    have hb := List.of_mem_filter hv
    unfold Component.inBounds at hb
    rw [Bool.and_eq_true] at hb
    refine ⟨of_decide_eq_true hb.1, ?_⟩
    intro M hM
    rcases hmax : c.max with _ | M'
    · rw [hmax] at hM
      exact absurd hM (by simp)
    · rw [hmax] at hM
      have hb2 := hb.2
      rw [hmax] at hb2
      simp only [Option.mem_def, Option.some.injEq] at hM
      subst hM
      exact of_decide_eq_true hb2

/-- Witness for C7: a dependent component whose formula is the constant
`-5` yields nothing. -/
theorem c7_witness :
    (Component.mk E3 (some (fun _ => (-5 : ℚ))) 0 none true ValuesMode.calcMode).calculate
      = some (fun _ => (-5 : ℚ)) ∧
    (((fun _ => (-5 : ℚ)) (([] : List ComponentValue).map (·.exact)) ≤ 0 →
      (Component.mk E3 (some (fun _ => (-5 : ℚ))) 0 none true
        ValuesMode.calcMode).calculate_values [] = []) ∧
    (∀ v ∈ (Component.mk E3 (some (fun _ => (-5 : ℚ))) 0 none true
        ValuesMode.calcMode).calculate_values [],
      (Component.mk E3 (some (fun _ => (-5 : ℚ))) 0 none true
        ValuesMode.calcMode).min ≤ v.exact ∧
      ∀ M ∈ (Component.mk E3 (some (fun _ => (-5 : ℚ))) 0 none true
        ValuesMode.calcMode).max, v.exact ≤ M)) :=
  ⟨rfl, c7_dependent_generator
    (Component.mk E3 (some (fun _ => (-5 : ℚ))) 0 none true ValuesMode.calcMode)
    (fun _ => (-5 : ℚ)) [] rfl⟩

/-- C10 (amended): the two `assert`s catch a negative minimum and
`maximum < minimum` at construction time, but a free parameter with a
minimum of zero and no maximum is NOT rejected — construction succeeds,
merely leaving the component without a `values` generator. -/
theorem c10_construction_checks (series : List ℚ)
    (calculate : Option (List ℚ → ℚ)) (minimum : ℚ) (maximum : Option ℚ)
    (u : Bool) :
    (minimum < 0 → mkComponent series calculate minimum maximum u = none) ∧
    (∀ M, maximum = some M → M < minimum →
      mkComponent series calculate minimum maximum u = none) ∧
    (∃ c, mkComponent series none 0 none u = some c ∧ c.mode = ValuesMode.unset) := by
  refine ⟨?_, ?_, ?_⟩
  · intro h
    unfold mkComponent
    rw [if_pos h]
  · intro M hM h
    by_cases hneg : minimum < 0
    · unfold mkComponent
      rw [if_pos hneg]
    · unfold mkComponent
      rw [if_neg hneg, hM]
      simp only [if_pos h]
  · refine ⟨Component.mk series none 0 none u ValuesMode.unset, ?_, rfl⟩
    unfold mkComponent
    norm_num

/-- Witness for C10 with concrete invalid and valid configurations over E3. -/
theorem c10_witness :
    ((-1:ℚ) < 0 → mkComponent E3 none (-1) none true = none) ∧
    (∀ M, (some (2:ℚ) : Option ℚ) = some M → M < 3 →
      mkComponent E3 none 3 (some 2) true = none) ∧
    (∃ c, mkComponent E3 none 0 none true = some c ∧ c.mode = ValuesMode.unset) :=
  ⟨(c10_construction_checks E3 none (-1) none true).1,
   fun M hM h => (c10_construction_checks E3 none 3 (some 2) true).2.1 M hM h,
   (c10_construction_checks E3 none 0 none true).2.2⟩

/-- Counterexample to C10 as stated: the third "invalid configuration" — a
free parameter with minimum 0 and no maximum — does NOT fail at
construction: `mkComponent` returns a component. -/
theorem c10_counterexample :
    ∃ c, mkComponent E3 none 0 none true = some c := by
  refine ⟨Component.mk E3 none 0 none true ValuesMode.unset, ?_⟩
  unfold mkComponent
  norm_num

/-- One step of the `_all_values` index walk: advance to the next series
index, rolling into the next decade (`decade *= 10`, index `0`) at the
series end. -/
def stepIV (len : ℕ) : ℤ × ℚ → ℤ × ℚ :=
  fun p => if p.1 + 1 < (len : ℤ) then (p.1 + 1, p.2) else (0, p.2 * 10)

/-- `Component._all_values` as a stream: the n-th `(index, decade)` pair
yielded by the generator, which starts at `(start_index, start_decade)` and
then keeps advancing with `stepIV`. -/
def Component.all_values (c : Component) (si : ℤ) (sd : ℚ) (n : ℕ) : ℤ × ℚ :=
  (stepIV c.series.length)^[n] (si, sd)

/-- The `approx` of the value node built at step `n` of the walk. -/
def Component.approxAt (c : Component) (si : ℤ) (sd : ℚ) (n : ℕ) : ℚ :=
  pyGet c.series (c.all_values si sd n).1 * (c.all_values si sd n).2

/-- `Component._iter_values`, materialized up to the first `n` steps of the
underlying lazy walk: build the value node for each pair and stop at the
first whose `approx` exceeds the configured maximum.  (With no maximum the
Python comparison `approx > None` raises before anything is yielded, hence
`[]`.)  For `n` beyond the stopping point the list no longer changes, so
the stabilized list is the generator's full output. -/
def Component.iter_values_n (c : Component) (si : ℤ) (sd : ℚ) (n : ℕ) :
    List ComponentValue :=
  match c.max with
  | none => []
  | some M =>
    (((List.range n).map (fun j => c.all_values si sd j)).map
      (fun p => ComponentValue.fromIndexOnly c.series p.1 p.2)).takeWhile
      (fun v => decide (v.approx ≤ M))

theorem all_values_zero (c : Component) (si : ℤ) (sd : ℚ) :
    c.all_values si sd 0 = (si, sd) := rfl

theorem all_values_succ (c : Component) (si : ℤ) (sd : ℚ) (n : ℕ) :
    c.all_values si sd (n+1) = stepIV c.series.length (c.all_values si sd n) :=
  Function.iterate_succ_apply' _ n _

/-- Walking `k` steps without reaching the series end just adds `k` to the
index. -/
theorem all_values_no_wrap (c : Component) (si : ℤ) (sd : ℚ) (k : ℕ)
    (h0 : 0 ≤ si) (h : si + k < c.series.length) :
    c.all_values si sd k = (si + k, sd) := by
  induction k with
  | zero => simpa using all_values_zero c si sd
  | succ j ih =>
    rw [all_values_succ, ih (by push_cast at h ⊢; omega)]
    unfold stepIV
    rw [if_pos (by push_cast at h ⊢; omega)]
    rw [Prod.mk.injEq]
    constructor
    · push_cast; ring
    · rfl

/-- Finishing the current decade: after `len - start_index` steps the walk
is at index 0 of the next decade. -/
theorem all_values_wrap (c : Component) (si : ℤ) (sd : ℚ)
    (h0 : 0 ≤ si) (hlt : si < c.series.length) :
    c.all_values si sd (c.series.length - si.toNat) = (0, sd * 10) := by
  have hsplit : c.series.length - si.toNat = (c.series.length - si.toNat - 1) + 1 := by
    omega
  rw [hsplit, all_values_succ,
    all_values_no_wrap c si sd (c.series.length - si.toNat - 1) h0 (by push_cast; omega)]
  unfold stepIV
  rw [if_neg (by push_cast; omega)]

/-- Each further full series sweep multiplies the decade by 10. -/
theorem all_values_decades (c : Component) (sd : ℚ) (q : ℕ)
    (hlen : 0 < c.series.length) :
    c.all_values 0 sd (q * c.series.length) = (0, sd * 10^q) := by
  induction q generalizing sd with
  | zero => simp [all_values_zero]
  | succ j ih =>
    have hsplit : (j+1) * c.series.length = j * c.series.length + c.series.length := by
      ring
    rw [hsplit]
    unfold Component.all_values at ih ⊢
    rw [Function.iterate_add_apply]
    have hwrap : (stepIV c.series.length)^[c.series.length] ((0:ℤ), sd) = (0, sd * 10) := by
      have := all_values_wrap c 0 sd le_rfl (by exact_mod_cast hlen)
      simpa [Component.all_values] using this
    rw [hwrap, ih (sd * 10)]
    rw [Prod.mk.injEq]
    constructor
    · rfl
    · ring

/-- Closed form of the walk past the starting decade: after finishing the
`len - si` remaining indices of the starting decade, `q` full sweeps and
`r` more steps land on index `r` of decade `sd * 10^(q+1)`. -/
theorem all_values_closed (c : Component) (si : ℤ) (sd : ℚ)
    (h0 : 0 ≤ si) (hlt : si < c.series.length) (q r : ℕ) (hr : r < c.series.length) :
    c.all_values si sd ((c.series.length - si.toNat) + q * c.series.length + r)
      = ((r : ℤ), sd * 10^(q+1)) := by
  have hlen : 0 < c.series.length := by omega
  have horder : (c.series.length - si.toNat) + q * c.series.length + r
      = r + (q * c.series.length + (c.series.length - si.toNat)) := by ring
  unfold Component.all_values
  rw [horder, Function.iterate_add_apply, Function.iterate_add_apply]
  have h1 : (stepIV c.series.length)^[c.series.length - si.toNat] (si, sd) = (0, sd * 10) :=
    all_values_wrap c si sd h0 hlt
  rw [h1]
  have h2 : (stepIV c.series.length)^[q * c.series.length] ((0:ℤ), sd * 10)
      = (0, sd * 10 * 10^q) :=
    all_values_decades c (sd * 10) q hlen
  rw [h2]
  have h3 : (stepIV c.series.length)^[r] ((0:ℤ), sd * 10 * 10^q)
      = ((0:ℤ) + r, sd * 10 * 10^q) :=
    all_values_no_wrap c 0 (sd * 10 * 10^q) r le_rfl (by push_cast; omega)
  rw [h3, Prod.mk.injEq]
  constructor
  · ring
  · ring

/-- The walk keeps the index in range and the decade positive. -/
theorem all_values_inv (c : Component) (si : ℤ) (sd : ℚ)
    (h0 : 0 ≤ si) (hlt : si < c.series.length) (hd : 0 < sd) (n : ℕ) :
    0 ≤ (c.all_values si sd n).1 ∧ (c.all_values si sd n).1 < c.series.length ∧
      0 < (c.all_values si sd n).2 := by
  induction n with
  | zero => exact ⟨h0, hlt, hd⟩
  | succ j ih =>
    rw [all_values_succ]
    unfold stepIV
    by_cases h : (c.all_values si sd j).1 + 1 < (c.series.length : ℤ)
    · rw [if_pos h]
      exact ⟨by omega, h, ih.2.2⟩
    · rw [if_neg h]
      show (0:ℤ) ≤ 0 ∧ (0:ℤ) < (c.series.length : ℤ) ∧ 0 < (c.all_values si sd j).2 * 10
      refine ⟨le_rfl, by exact_mod_cast (by omega : 0 < c.series.length), ?_⟩
      linarith [ih.2.2]

/-- Strict growth of the approximated magnitude along the walk. -/
theorem approxAt_strict (c : Component) (si : ℤ) (sd : ℚ) (hs : ValidSeries c.series)
    (h0 : 0 ≤ si) (hlt : si < c.series.length) (hd : 0 < sd) (n : ℕ) :
    c.approxAt si sd n < c.approxAt si sd (n+1) := by
  obtain ⟨hp0, hplt, hpd⟩ := all_values_inv c si sd h0 hlt hd n
  have hnat : (c.all_values si sd n).1.toNat < c.series.length := by omega
  have hbounds := getD_mem_bounds c.series hs _ hnat
  unfold Component.approxAt
  rw [all_values_succ]
  unfold stepIV
  by_cases h : (c.all_values si sd n).1 + 1 < (c.series.length : ℤ)
  · rw [if_pos h]
    simp only
    rw [pyGet_nonneg _ _ hp0, pyGet_nonneg _ _ (by omega)]
    apply mul_lt_mul_of_pos_right _ hpd
    have htn : ((c.all_values si sd n).1 + 1).toNat = (c.all_values si sd n).1.toNat + 1 := by
      omega
    rw [htn]
    exact getD_strict_sorted c.series hs.2.2.1 _ _ (by omega) (by omega)
  · rw [if_neg h]
    simp only
    rw [pyGet_nonneg _ _ hp0, pyGet_nonneg _ 0 le_rfl]
    have h0g : c.series.getD (Int.toNat 0) 0 = 1 := hs.2.1
    rw [h0g, one_mul]
    calc c.series.getD (c.all_values si sd n).1.toNat 0 * (c.all_values si sd n).2
        < 10 * (c.all_values si sd n).2 := mul_lt_mul_of_pos_right hbounds.2 hpd
    _ = (c.all_values si sd n).2 * 10 := by ring

/-- The walk eventually exceeds any bound: decades grow without limit. -/
theorem exists_approxAt_gt (c : Component) (si : ℤ) (sd M : ℚ)
    (hs : ValidSeries c.series) (h0 : 0 ≤ si) (hlt : si < c.series.length)
    (hd : 0 < sd) :
    ∃ N : ℕ, M < c.approxAt si sd N := by
  obtain ⟨q, hq⟩ := pow_unbounded_of_one_lt (M / sd) (by norm_num : (1:ℚ) < 10)
  refine ⟨(c.series.length - si.toNat) + q * c.series.length + 0, ?_⟩
  unfold Component.approxAt
  rw [all_values_closed c si sd h0 hlt q 0 (by omega)]
  have hg : pyGet c.series ((0:ℕ) : ℤ) = 1 := by
    rw [pyGet_nonneg _ _ (by norm_num)]
    simpa using hs.2.1
  simp only [hg, one_mul]
  have h1 : M < sd * 10^q := by
    rw [div_lt_iff₀ hd] at hq
    linarith [hq]
  have h2 : sd * 10^q ≤ sd * 10^(q+1) := by
    apply mul_le_mul_of_nonneg_left _ (le_of_lt hd)
    exact pow_le_pow_right (by norm_num) (by omega)
  linarith

theorem iter_values_n_some (c : Component) (si : ℤ) (sd M : ℚ) (n : ℕ)
    (hmax : c.max = some M) :
    c.iter_values_n si sd n =
      (((List.range n).map (fun j => c.all_values si sd j)).map
        (fun p => ComponentValue.fromIndexOnly c.series p.1 p.2)).takeWhile
        (fun v => decide (v.approx ≤ M)) := by
  unfold Component.iter_values_n
  rw [hmax]

theorem takeWhile_append_first_false {p : ComponentValue → Bool}
    (l1 l2 : List ComponentValue) (h : ∀ b, l2.head? = some b → p b = false) :
    (l1 ++ l2).takeWhile p = l1.takeWhile p := by
  induction l1 with
  | nil =>
    simp only [List.nil_append, List.takeWhile_nil]
    cases l2 with
    | nil => rfl
    | cons b t =>
      rw [List.takeWhile_cons, h b rfl]
      simp
  | cons a t ih =>
    rw [List.cons_append, List.takeWhile_cons, List.takeWhile_cons]
    by_cases hpa : p a = true
    · rw [if_pos hpa, if_pos hpa, ih]
    · rw [if_neg hpa, if_neg hpa]

/-- Once the walk exceeds the maximum, the truncated output stabilizes. -/
theorem iter_values_stab (c : Component) (si : ℤ) (sd M : ℚ)
    (hmax : c.max = some M) (N : ℕ) (hN : M < c.approxAt si sd N) :
    ∀ m : ℕ, N ≤ m → c.iter_values_n si sd m = c.iter_values_n si sd N := by
  intro m hm
  rcases Nat.lt_or_ge N m with hlt2 | hge
  · rw [iter_values_n_some c si sd M m hmax, iter_values_n_some c si sd M N hmax]
    have hsplit : m = N + (m - N) := by omega
    rw [hsplit, List.range_add, List.map_append, List.map_append]
    apply takeWhile_append_first_false
    intro b hb
    have hmn : m - N = (m - N - 1) + 1 := by omega
    rw [hmn, List.range_succ_eq_map] at hb
    simp only [List.map_cons, List.head?_cons, Option.some.injEq] at hb
    have hbapp : b.approx = c.approxAt si sd (N + 0) := by
      rw [← hb]
      rfl
    rw [Nat.add_zero] at hbapp
    apply decide_eq_false
    rw [hbapp]
    exact not_le.mpr hN
  · have : m = N := by omega
    rw [this]

/-- All values the truncated generator emits respect the maximum. -/
theorem iter_values_le_max (c : Component) (si : ℤ) (sd M : ℚ)
    (hmax : c.max = some M) (n : ℕ) :
    ∀ v ∈ c.iter_values_n si sd n, v.approx ≤ M := by
  intro v hv
  rw [iter_values_n_some c si sd M n hmax] at hv
  have := List.mem_takeWhile_imp (p := fun w : ComponentValue => decide (w.approx ≤ M)) hv
  exact of_decide_eq_true this

/-- Unpacking a successfully-built free component with a positive minimum:
its fields are the arguments and its generator starts at the decade
approximator's result for the minimum. -/
theorem mkComponent_free (s : List ℚ) (minimum M : ℚ) (u : Bool) (c : Component)
    (hmin : 0 < minimum) (hmk : mkComponent s none minimum (some M) u = some c) :
    c = Component.mk s none minimum (some M) u
      (ValuesMode.iterMode (approximate minimum s).1 (approximate minimum s).2) := by
  unfold mkComponent at hmk
  rw [if_neg (by linarith)] at hmk
  dsimp only at hmk
  by_cases h : M < minimum
  · rw [if_pos h] at hmk
    exact absurd hmk (by simp)
  · rw [if_neg h] at hmk
    have hc := Option.some.inj hmk
    rw [← hc]
    simp only [Option.isSome_none, Bool.false_eq_true, if_false, if_pos hmin]

/-- C8 (amended): for a free (no-formula) component built with a positive
configured minimum and a configured maximum, the generator walks
`(index, decade)` pairs in strictly increasing order of `approx`, starting
from the decade approximator's result for the minimum, first finishing the
remaining indices of the starting decade, then every index of each
subsequent decade, and it terminates as soon as the resulting `approx`
exceeds the configured maximum (its output stabilizes past that point and
every emitted value respects the maximum).  The "first series entry at
decade 1 when no minimum is given" fallback of the original claim does not
exist: with minimum 0 no generator is installed at all (see the
counterexample). -/
theorem c8_free_enumeration (s : List ℚ) (minimum M : ℚ) (u : Bool) (c : Component)
    (hs : ValidSeries s) (hmin : 0 < minimum)
    (hmk : mkComponent s none minimum (some M) u = some c) :
    ∃ si : ℕ, ∃ sd : ℚ,
      approximate minimum s = ((si : ℤ), sd) ∧ 0 < sd ∧ si < s.length ∧
      c.mode = ValuesMode.iterMode (si : ℤ) sd ∧
      c.all_values (si : ℤ) sd 0 = ((si : ℤ), sd) ∧
      (∀ n : ℕ, c.approxAt (si : ℤ) sd n < c.approxAt (si : ℤ) sd (n+1)) ∧
      (∀ k : ℕ, si + k < s.length →
        c.all_values (si : ℤ) sd k = ((si : ℤ) + k, sd)) ∧
      (∀ q r : ℕ, r < s.length →
        c.all_values (si : ℤ) sd ((s.length - si) + q * s.length + r)
          = ((r : ℤ), sd * 10^(q+1))) ∧
      (∀ n : ℕ, ∀ v ∈ c.iter_values_n (si : ℤ) sd n, v.approx ≤ M) ∧
      (∃ N : ℕ, M < c.approxAt (si : ℤ) sd N ∧
        ∀ m : ℕ, N ≤ m → c.iter_values_n (si : ℤ) sd m =
          c.iter_values_n (si : ℤ) sd N) := by
  have hc := mkComponent_free s minimum M u c hmin hmk
  have hser : c.series = s := by rw [hc]
  have hmax : c.max = some M := by rw [hc]
  obtain ⟨si, happ, hsilt, hsile, hsinext⟩ := approximate_spec s minimum hs hmin
  refine ⟨si, 10 ^ Int.log 10 minimum, happ, ten_zpow_pos _, hsilt, ?_, ?_, ?_, ?_, ?_, ?_, ?_⟩
  · rw [hc, happ]
  · exact all_values_zero c _ _
  · intro n
    apply approxAt_strict c _ _ (by rw [hser]; exact hs) (by positivity)
      (by rw [hser]; exact_mod_cast hsilt) (ten_zpow_pos _)
  · intro k hk
    exact all_values_no_wrap c _ _ k (by positivity)
      (by rw [hser]; push_cast; omega)
  · intro q r hr
    have htn : ((si : ℤ)).toNat = si := Int.toNat_natCast si
    have := all_values_closed c (si : ℤ) (10 ^ Int.log 10 minimum) (by positivity)
      (by rw [hser]; exact_mod_cast hsilt) q r (by rw [hser]; exact hr)
    rw [htn, hser] at this
    exact this
  · intro n v hv
    exact iter_values_le_max c _ _ M hmax n v hv
  · obtain ⟨N, hN⟩ := exists_approxAt_gt c (si : ℤ) (10 ^ Int.log 10 minimum) M
      (by rw [hser]; exact hs) (by positivity)
      (by rw [hser]; exact_mod_cast hsilt) (ten_zpow_pos _)
    exact ⟨N, hN, iter_values_stab c _ _ M hmax N hN⟩

/-- Witness for C8: a free E3 resistor-style component bounded `[3, 40]`. -/
theorem c8_witness :
    ValidSeries E3 ∧ (0:ℚ) < 3 ∧
    mkComponent E3 none 3 (some 40) true = some (Component.mk E3 none 3 (some 40)
      true (ValuesMode.iterMode (approximate 3 E3).1 (approximate 3 E3).2)) ∧
    (∃ si : ℕ, ∃ sd : ℚ,
      approximate 3 E3 = ((si : ℤ), sd) ∧ 0 < sd ∧ si < E3.length ∧
      (Component.mk E3 none 3 (some 40) true
        (ValuesMode.iterMode (approximate 3 E3).1 (approximate 3 E3).2)).mode
        = ValuesMode.iterMode (si : ℤ) sd ∧
      (Component.mk E3 none 3 (some 40) true
        (ValuesMode.iterMode (approximate 3 E3).1
          (approximate 3 E3).2)).all_values (si : ℤ) sd 0 = ((si : ℤ), sd) ∧
      (∀ n : ℕ, (Component.mk E3 none 3 (some 40) true
        (ValuesMode.iterMode (approximate 3 E3).1
          (approximate 3 E3).2)).approxAt (si : ℤ) sd n <
        (Component.mk E3 none 3 (some 40) true
        (ValuesMode.iterMode (approximate 3 E3).1
          (approximate 3 E3).2)).approxAt (si : ℤ) sd (n+1)) ∧
      (∀ k : ℕ, si + k < E3.length →
        (Component.mk E3 none 3 (some 40) true
        (ValuesMode.iterMode (approximate 3 E3).1
          (approximate 3 E3).2)).all_values (si : ℤ) sd k = ((si : ℤ) + k, sd)) ∧
      (∀ q r : ℕ, r < E3.length →
        (Component.mk E3 none 3 (some 40) true
        (ValuesMode.iterMode (approximate 3 E3).1
          (approximate 3 E3).2)).all_values (si : ℤ) sd
            ((E3.length - si) + q * E3.length + r) = ((r : ℤ), sd * 10^(q+1))) ∧
      (∀ n : ℕ, ∀ v ∈ (Component.mk E3 none 3 (some 40) true
        (ValuesMode.iterMode (approximate 3 E3).1
          (approximate 3 E3).2)).iter_values_n (si : ℤ) sd n, v.approx ≤ 40) ∧
      (∃ N : ℕ, 40 < (Component.mk E3 none 3 (some 40) true
        (ValuesMode.iterMode (approximate 3 E3).1
          (approximate 3 E3).2)).approxAt (si : ℤ) sd N ∧
        ∀ m : ℕ, N ≤ m →
          (Component.mk E3 none 3 (some 40) true
            (ValuesMode.iterMode (approximate 3 E3).1
              (approximate 3 E3).2)).iter_values_n (si : ℤ) sd m =
          (Component.mk E3 none 3 (some 40) true
            (ValuesMode.iterMode (approximate 3 E3).1
              (approximate 3 E3).2)).iter_values_n (si : ℤ) sd N)) := by
  have hmk : mkComponent E3 none 3 (some 40) true = some (Component.mk E3 none 3
      (some 40) true (ValuesMode.iterMode (approximate 3 E3).1
        (approximate 3 E3).2)) := by
    unfold mkComponent
    norm_num
  exact ⟨validSeries_E3, by norm_num, hmk,
    c8_free_enumeration E3 3 40 true _ validSeries_E3 (by norm_num) hmk⟩

/-- Counterexample to C8 as stated: a free component with a configured
maximum but no minimum (minimum 0) gets NO enumeration generator at all —
`__init__` installs `values` only when `minimum > 0` — rather than the
claimed fallback start at the first series entry of decade 1. -/
theorem c8_counterexample :
    (∃ c, mkComponent E3 none 0 (some 100) true = some c ∧
      c.mode = ValuesMode.unset) ∧
    ValuesMode.unset ≠ ValuesMode.iterMode 0 1 := by
  constructor
  · refine ⟨Component.mk E3 none 0 (some 100) true ValuesMode.unset, ?_, rfl⟩
    unfold mkComponent
    norm_num
  · intro h
    exact ValuesMode.noConfusion h

/-- An output (`Output` in the source): its expected value and formula over
the tuple of approximated component values.  The display-only name and
unit fields are omitted. -/
structure Output where
  expected : ℚ
  calculate : List ℚ → ℚ

/-- `Output.error`: absolute (signed) deviation, since `expected` may be 0. -/
def Output.error (o : Output) (value : ℚ) : ℚ := value - o.expected

/-- A component as the `Solver` consumes it: the `values` generator that
`Component.__init__` installed (a function of the already-resolved prefix
returning the candidate value nodes, finitely many when the search
terminates) plus the error flag.  The solver code is agnostic to which
generator it calls, so the embedding abstracts `comp.values` as a
function. -/
structure SolverComponent where
  values : List ComponentValue → List ComponentValue
  use_for_err : Bool

/-- One collected candidate: `(error, output values, component values)`. -/
abbrev Candidate := ℚ × List ℚ × List ComponentValue

/-- The solver's mutable state: the collected candidates and the dedup set
of approx tuples (a Python `set` of float tuples, embedded as the list of
its members with membership as equality). -/
structure SolverState where
  candidates : List Candidate
  approx_seen : List (List ℚ)

/-- `Solver` configuration. -/
structure Solver where
  components : List SolverComponent
  outputs : List Output
  threshold : Option ℚ

/-- The total error computed in `Solver._evaluate`: squared output
deviations plus squared relative errors of the error-flagged components. -/
def Solver.totalError (sol : Solver) (outs : List ℚ)
    (values : List ComponentValue) : ℚ :=
  ((sol.outputs.zip outs).map (fun p => (p.1.error p.2)^2)).sum +
  (((sol.components.zip values).filter (fun p => p.1.use_for_err)).map
    (fun p => p.2.error^2)).sum

/-- `Solver._evaluate`: skip if the approx tuple was already seen; compute
the outputs and the total error; record the candidate (and remember the
tuple) when no threshold is set or the error is strictly below it. -/
def Solver.evaluate (sol : Solver) (values : List ComponentValue)
    (st : SolverState) : SolverState :=
  let approx := values.map (·.approx)
  if approx ∈ st.approx_seen then st
  else
    let outs := sol.outputs.map (fun o => o.calculate approx)
    let err := sol.totalError outs values
    let record : SolverState :=
      { candidates := st.candidates ++ [(err, outs, values)],
        approx_seen := approx :: st.approx_seen }
    match sol.threshold with
    | none => record
    | some t => if err < t then record else st

/-- `Solver._recurse`: depth-first cross product.  The source mutates a
shared `values` list and passes `values[:index]` to each generator; the
embedding accumulates that prefix functionally. -/
def Solver.recurse (sol : Solver) :
    List SolverComponent → List ComponentValue → SolverState → SolverState
  | [], pre, st => sol.evaluate pre st
  | comp :: rest, pre, st =>
    (comp.values pre).foldl (fun st' v => Solver.recurse sol rest (pre ++ [v]) st') st

/-- Stable ascending insertion by the error key (first tuple component). -/
def insertByErr (x : Candidate) : List Candidate → List Candidate
  | [] => [x]
  | y :: ys => if x.1 ≤ y.1 then x :: y :: ys else y :: insertByErr x ys

/-- Embedding of Python's `list.sort(key=lambda v: v[0])`: a stable
ascending sort by the error key (insertion sort is such a sort; the C4
theorem proves both sortedness and stability). -/
def sortCandidates : List Candidate → List Candidate
  | [] => []
  | x :: xs => insertByErr x (sortCandidates xs)

/-- The discovery-order candidate list produced by the depth-first search. -/
def Solver.discovered (sol : Solver) : List Candidate :=
  (sol.recurse sol.components [] ⟨[], []⟩).candidates

/-- `Solver.solve`: run the search from the empty state, then sort the
candidates by increasing error. -/
def Solver.solve (sol : Solver) : List Candidate :=
  sortCandidates sol.discovered

theorem evaluate_seen (sol : Solver) (values : List ComponentValue)
    (st : SolverState) (h : values.map (·.approx) ∈ st.approx_seen) :
    sol.evaluate values st = st := by
  unfold Solver.evaluate
  rw [if_pos h]

theorem evaluate_of_none (sol : Solver) (values : List ComponentValue)
    (st : SolverState) (h : values.map (·.approx) ∉ st.approx_seen)
    (ht : sol.threshold = none) :
    sol.evaluate values st =
      { candidates := st.candidates ++
          [(sol.totalError (sol.outputs.map (fun o =>
              o.calculate (values.map (·.approx)))) values,
            sol.outputs.map (fun o => o.calculate (values.map (·.approx))),
            values)],
        approx_seen := values.map (·.approx) :: st.approx_seen } := by
  unfold Solver.evaluate
  rw [if_neg h, ht]

theorem evaluate_of_below (sol : Solver) (values : List ComponentValue)
    (st : SolverState) (t : ℚ) (h : values.map (·.approx) ∉ st.approx_seen)
    (ht : sol.threshold = some t)
    (he : sol.totalError (sol.outputs.map (fun o =>
      o.calculate (values.map (·.approx)))) values < t) :
    sol.evaluate values st =
      { candidates := st.candidates ++
          [(sol.totalError (sol.outputs.map (fun o =>
              o.calculate (values.map (·.approx)))) values,
            sol.outputs.map (fun o => o.calculate (values.map (·.approx))),
            values)],
        approx_seen := values.map (·.approx) :: st.approx_seen } := by
  unfold Solver.evaluate
  rw [if_neg h, ht]
  dsimp only
  rw [if_pos he]

theorem evaluate_of_at_or_above (sol : Solver) (values : List ComponentValue)
    (st : SolverState) (t : ℚ) (h : values.map (·.approx) ∉ st.approx_seen)
    (ht : sol.threshold = some t)
    (he : t ≤ sol.totalError (sol.outputs.map (fun o =>
      o.calculate (values.map (·.approx)))) values) :
    sol.evaluate values st = st := by
  unfold Solver.evaluate
  rw [if_neg h, ht]
  dsimp only
  rw [if_neg (not_lt.mpr he)]

theorem outputs_sum_spec (os : List Output) (xs : List ℚ) :
    ((os.zip (os.map (fun o => o.calculate xs))).map
      (fun p => (p.1.error p.2)^2)).sum
      = ∑ i in Finset.range os.length,
          ((os.getD i ⟨0, fun _ => 0⟩).calculate xs
            - (os.getD i ⟨0, fun _ => 0⟩).expected)^2 := by
  induction os with
  | nil => simp
  | cons o rest ih =>
    rw [List.map_cons, List.zip_cons_cons, List.map_cons, List.sum_cons, ih,
      List.length_cons, Finset.sum_range_succ']
    simp only [List.getD_cons_succ, List.getD_cons_zero]
    unfold Output.error
    ring

theorem components_sum_spec (cs : List SolverComponent)
    (vs : List ComponentValue) (h : vs.length = cs.length) :
    (((cs.zip vs).filter (fun p => p.1.use_for_err)).map
      (fun p => p.2.error^2)).sum
      = ∑ i in Finset.range cs.length,
          if (cs.getD i ⟨fun _ => [], false⟩).use_for_err = true
          then ((vs.getD i (ComponentValue.mk [] 0 1 1 1)).approx
                / (vs.getD i (ComponentValue.mk [] 0 1 1 1)).exact - 1)^2
          else 0 := by
  induction cs generalizing vs with
  | nil => simp
  | cons comp rest ih =>
    cases vs with
    | nil => simp at h
    | cons v vtail =>
      have hlen : vtail.length = rest.length := by simpa using h
      rw [List.zip_cons_cons, List.filter_cons, List.length_cons,
        Finset.sum_range_succ']
      simp only [List.getD_cons_succ, List.getD_cons_zero]
      cases hu : comp.use_for_err with
      | true =>
        rw [if_pos rfl, List.map_cons, List.sum_cons, ih vtail hlen, if_pos rfl]
        unfold ComponentValue.error
        ring
      | false =>
        rw [if_neg (by simp), ih vtail hlen, if_neg (by simp)]
        simp

theorem totalError_nonneg (sol : Solver) (outs : List ℚ)
    (values : List ComponentValue) : 0 ≤ sol.totalError outs values := by
  unfold Solver.totalError
  have h1 : 0 ≤ ((sol.outputs.zip outs).map (fun p => (p.1.error p.2)^2)).sum := by
    apply List.sum_nonneg
    intro x hx
    obtain ⟨p, _, hp⟩ := List.mem_map.mp hx
    rw [← hp]
    exact sq_nonneg _
  have h2 : 0 ≤ (((sol.components.zip values).filter
      (fun p => p.1.use_for_err)).map (fun p => p.2.error^2)).sum := by
    apply List.sum_nonneg
    intro x hx
    obtain ⟨p, _, hp⟩ := List.mem_map.mp hx
    rw [← hp]
    exact sq_nonneg _
  linarith

theorem evaluate_threshold_zero (sol : Solver) (h : sol.threshold = some 0)
    (values : List ComponentValue) (st : SolverState) :
    sol.evaluate values st = st := by
  by_cases hseen : values.map (·.approx) ∈ st.approx_seen
  · exact evaluate_seen sol values st hseen
  · exact evaluate_of_at_or_above sol values st 0 hseen h (totalError_nonneg sol _ values)

theorem foldl_id {α β : Type} (f : α → β → α) (l : List β) (a : α)
    (h : ∀ a' b, b ∈ l → f a' b = a') : l.foldl f a = a := by
  induction l generalizing a with
  | nil => rfl
  | cons b t ih =>
    rw [List.foldl_cons, h a b (List.mem_cons_self b t)]
    exact ih a (fun a' b' hb' => h a' b' (List.mem_cons_of_mem b hb'))

theorem recurse_threshold_zero (sol : Solver) (h : sol.threshold = some 0) :
    ∀ (comps : List SolverComponent) (pre : List ComponentValue) (st : SolverState),
      sol.recurse comps pre st = st := by
  intro comps
  induction comps with
  | nil => exact fun pre st => evaluate_threshold_zero sol h pre st
  | cons c rest ih =>
    intro pre st
    unfold Solver.recurse
    exact foldl_id _ _ _ (fun a' b _ => ih (pre ++ [b]) a')

theorem solve_threshold_zero (sol : Solver) (h : sol.threshold = some 0) :
    sol.solve = [] := by
  unfold Solver.solve Solver.discovered
  rw [recurse_threshold_zero sol h]
  rfl

/-- C2: for a complete, non-duplicate assignment, the total error is the
sum of squared output deviations plus the sum of squared relative errors of
the error-flagged components; the assignment is recorded iff no threshold
is set or the total error is strictly below it, and discarded when it
meets or exceeds the threshold; in particular with threshold 0 the result
set is empty. -/
theorem c2_error_and_threshold (sol : Solver) (values : List ComponentValue)
    (st : SolverState) (hv : values.length = sol.components.length)
    (hnodup : values.map (·.approx) ∉ st.approx_seen) :
    (sol.totalError (sol.outputs.map (fun o =>
        o.calculate (values.map (·.approx)))) values
      = (∑ i in Finset.range sol.outputs.length,
          ((sol.outputs.getD i ⟨0, fun _ => 0⟩).calculate (values.map (·.approx))
            - (sol.outputs.getD i ⟨0, fun _ => 0⟩).expected)^2)
        + ∑ i in Finset.range sol.components.length,
            if (sol.components.getD i ⟨fun _ => [], false⟩).use_for_err = true
            then ((values.getD i (ComponentValue.mk [] 0 1 1 1)).approx
                  / (values.getD i (ComponentValue.mk [] 0 1 1 1)).exact - 1)^2
            else 0) ∧
    ((sol.threshold = none ∨ ∃ t, sol.threshold = some t ∧
        sol.totalError (sol.outputs.map (fun o =>
          o.calculate (values.map (·.approx)))) values < t) →
      (sol.evaluate values st).candidates = st.candidates ++
        [(sol.totalError (sol.outputs.map (fun o =>
            o.calculate (values.map (·.approx)))) values,
          sol.outputs.map (fun o => o.calculate (values.map (·.approx))),
          values)]) ∧
    (∀ t, sol.threshold = some t →
      t ≤ sol.totalError (sol.outputs.map (fun o =>
        o.calculate (values.map (·.approx)))) values →
      sol.evaluate values st = st) ∧
    (∀ sol0 : Solver, sol0.threshold = some 0 → sol0.solve = []) := by
  refine ⟨?_, ?_, ?_, ?_⟩
  · unfold Solver.totalError
    rw [outputs_sum_spec sol.outputs (values.map (·.approx)),
      components_sum_spec sol.components values hv]
  · rintro (ht | ⟨t, ht, he⟩)
    · rw [evaluate_of_none sol values st hnodup ht]
    · rw [evaluate_of_below sol values st t hnodup ht he]
  · intro t ht he
    exact evaluate_of_at_or_above sol values st t hnodup ht he
  · exact fun sol0 h0 => solve_threshold_zero sol0 h0

/-- Concrete solver configuration for the C2 witness: one component, one
output, threshold 1. -/
def solW : Solver :=
  Solver.mk [SolverComponent.mk (fun _ => []) true]
    [Output.mk 1 (fun l => l.sum)] (some 1)

/-- Concrete complete assignment for the C2 witness. -/
def valsW : List ComponentValue := [ComponentValue.fromIndexOnly E3 0 1]

/-- Witness for C2 at `solW`/`valsW` and the empty state. -/
theorem c2_witness :
    (valsW.length = solW.components.length) ∧
    (valsW.map (·.approx) ∉ (SolverState.mk [] []).approx_seen) ∧
    ((solW.totalError (solW.outputs.map (fun o =>
        o.calculate (valsW.map (·.approx)))) valsW
      = (∑ i in Finset.range solW.outputs.length,
          ((solW.outputs.getD i ⟨0, fun _ => 0⟩).calculate (valsW.map (·.approx))
            - (solW.outputs.getD i ⟨0, fun _ => 0⟩).expected)^2)
        + ∑ i in Finset.range solW.components.length,
            if (solW.components.getD i ⟨fun _ => [], false⟩).use_for_err = true
            then ((valsW.getD i (ComponentValue.mk [] 0 1 1 1)).approx
                  / (valsW.getD i (ComponentValue.mk [] 0 1 1 1)).exact - 1)^2
            else 0) ∧
    ((solW.threshold = none ∨ ∃ t, solW.threshold = some t ∧
        solW.totalError (solW.outputs.map (fun o =>
          o.calculate (valsW.map (·.approx)))) valsW < t) →
      (solW.evaluate valsW (SolverState.mk [] [])).candidates =
        (SolverState.mk [] []).candidates ++
        [(solW.totalError (solW.outputs.map (fun o =>
            o.calculate (valsW.map (·.approx)))) valsW,
          solW.outputs.map (fun o => o.calculate (valsW.map (·.approx))),
          valsW)]) ∧
    (∀ t, solW.threshold = some t →
      t ≤ solW.totalError (solW.outputs.map (fun o =>
        o.calculate (valsW.map (·.approx)))) valsW →
      solW.evaluate valsW (SolverState.mk [] []) = SolverState.mk [] []) ∧
    (∀ sol0 : Solver, sol0.threshold = some 0 → sol0.solve = [])) :=
  ⟨rfl, List.not_mem_nil _,
    c2_error_and_threshold solW valsW (SolverState.mk [] []) rfl (List.not_mem_nil _)⟩

/-- The dedup fingerprint of a candidate: its tuple of approx values. -/
def approxTuple (cand : Candidate) : List ℚ := cand.2.2.map (·.approx)

/-- The invariant maintained by `_evaluate`: recorded candidates have
pairwise distinct approx tuples, each present in the dedup set. -/
def SolverInv (st : SolverState) : Prop :=
  st.candidates.Pairwise (fun a b => approxTuple a ≠ approxTuple b) ∧
  ∀ cand ∈ st.candidates, approxTuple cand ∈ st.approx_seen

theorem record_inv (st : SolverState) (err : ℚ) (outs : List ℚ)
    (values : List ComponentValue) (h : SolverInv st)
    (hseen : values.map (·.approx) ∉ st.approx_seen) :
    SolverInv ⟨st.candidates ++ [(err, outs, values)],
      values.map (·.approx) :: st.approx_seen⟩ := by
  constructor
  · rw [List.pairwise_append]
    refine ⟨h.1, List.pairwise_singleton _ _, ?_⟩
    intro a ha b hb
    simp only [List.mem_singleton] at hb
    subst hb
    intro heq
    apply hseen
    have hmem := h.2 a ha
    rw [heq] at hmem
    exact hmem
  · intro cand hc
    rw [List.mem_append] at hc
    rcases hc with hc | hc
    · exact List.mem_cons_of_mem _ (h.2 cand hc)
    · simp only [List.mem_singleton] at hc
      subst hc
      exact List.mem_cons_self _ _

theorem evaluate_inv (sol : Solver) (values : List ComponentValue)
    (st : SolverState) (h : SolverInv st) : SolverInv (sol.evaluate values st) := by
  by_cases hseen : values.map (·.approx) ∈ st.approx_seen
  · rw [evaluate_seen sol values st hseen]
    exact h
  · rcases ht : sol.threshold with _ | t
    · rw [evaluate_of_none sol values st hseen ht]
      exact record_inv st _ _ values h hseen
    · by_cases he : sol.totalError (sol.outputs.map (fun o =>
          o.calculate (values.map (·.approx)))) values < t
      · rw [evaluate_of_below sol values st t hseen ht he]
        exact record_inv st _ _ values h hseen
      · rw [evaluate_of_at_or_above sol values st t hseen ht (not_lt.mp he)]
        exact h

theorem foldl_preserves {α β : Type} (P : α → Prop) (f : α → β → α)
    (h : ∀ a b, P a → P (f a b)) (l : List β) (a : α) (ha : P a) :
    P (l.foldl f a) := by
  induction l generalizing a with
  | nil => exact ha
  | cons b t ih => exact ih (f a b) (h a b ha)

theorem recurse_inv (sol : Solver) :
    ∀ (comps : List SolverComponent) (pre : List ComponentValue)
      (st : SolverState), SolverInv st → SolverInv (sol.recurse comps pre st) := by
  intro comps
  induction comps with
  | nil => exact fun pre st h => evaluate_inv sol pre st h
  | cons c rest ih =>
    intro pre st h
    unfold Solver.recurse
    exact foldl_preserves SolverInv _ (fun a b hb => ih (pre ++ [b]) a hb) _ _ h

theorem insertByErr_perm (x : Candidate) (l : List Candidate) :
    List.Perm (insertByErr x l) (x :: l) := by
  induction l with
  | nil => exact List.Perm.refl _
  | cons y ys ih =>
    unfold insertByErr
    by_cases hxy : x.1 ≤ y.1
    · rw [if_pos hxy]
    · rw [if_neg hxy]
      exact List.Perm.trans (ih.cons y) (List.Perm.swap x y ys)

theorem sortCandidates_perm (l : List Candidate) :
    List.Perm (sortCandidates l) l := by
  induction l with
  | nil => exact List.Perm.refl _
  | cons x xs ih =>
    have h1 : sortCandidates (x :: xs) = insertByErr x (sortCandidates xs) := rfl
    rw [h1]
    exact List.Perm.trans (insertByErr_perm x _) (ih.cons x)

/-- C3: after `solve()` completes, no two recorded candidates share the
same tuple of per-component `approx` values. -/
theorem c3_dedup_invariant (sol : Solver) :
    (sol.solve).Pairwise
      (fun a b => a.2.2.map (·.approx) ≠ b.2.2.map (·.approx)) := by
  have hinv : SolverInv (sol.recurse sol.components [] ⟨[], []⟩) :=
    recurse_inv sol sol.components [] ⟨[], []⟩ ⟨List.Pairwise.nil, by simp⟩
  have hperm : List.Perm
      (sortCandidates (sol.recurse sol.components [] ⟨[], []⟩).candidates)
      (sol.recurse sol.components [] ⟨[], []⟩).candidates :=
    sortCandidates_perm _
  exact (hperm.pairwise_iff (fun {a b} h heq => h heq.symm)).mpr hinv.1

theorem mem_insertByErr (x : Candidate) (l : List Candidate) (a : Candidate) :
    a ∈ insertByErr x l ↔ a = x ∨ a ∈ l := by
  rw [(insertByErr_perm x l).mem_iff, List.mem_cons]

theorem insertByErr_sorted (x : Candidate) (l : List Candidate)
    (h : l.Pairwise (fun a b => a.1 ≤ b.1)) :
    (insertByErr x l).Pairwise (fun a b => a.1 ≤ b.1) := by
  induction l with
  | nil => simp [insertByErr]
  | cons y ys ih =>
    rcases List.pairwise_cons.mp h with ⟨hy, hys⟩
    unfold insertByErr
    by_cases hxy : x.1 ≤ y.1
    · rw [if_pos hxy, List.pairwise_cons]
      refine ⟨?_, h⟩
      intro b hb
      rcases List.mem_cons.mp hb with rfl | hb
      · exact hxy
      · exact le_trans hxy (hy b hb)
    · rw [if_neg hxy, List.pairwise_cons]
      refine ⟨?_, ih hys⟩
      intro b hb
      rcases (mem_insertByErr x ys b).mp hb with rfl | hb
      · exact le_of_not_le hxy
      · exact hy b hb

theorem sortCandidates_sorted (l : List Candidate) :
    (sortCandidates l).Pairwise (fun a b => a.1 ≤ b.1) := by
  induction l with
  | nil => exact List.Pairwise.nil
  | cons x xs ih => exact insertByErr_sorted x (sortCandidates xs) ih

theorem filter_insertByErr (x : Candidate) (l : List Candidate) (e : ℚ)
    (h : l.Pairwise (fun a b => a.1 ≤ b.1)) :
    (insertByErr x l).filter (fun c => decide (c.1 = e))
      = (x :: l).filter (fun c => decide (c.1 = e)) := by
  induction l with
  | nil => rfl
  | cons y ys ih =>
    rcases List.pairwise_cons.mp h with ⟨hy, hys⟩
    unfold insertByErr
    by_cases hxy : x.1 ≤ y.1
    · rw [if_pos hxy]
    · rw [if_neg hxy]
      have hyx : y.1 < x.1 := not_le.mp hxy
      by_cases hxe : x.1 = e
      · have hye : ¬ (y.1 = e) := by
          intro hye
          rw [hxe, ← hye] at hyx
          exact lt_irrefl _ hyx
        simp [List.filter_cons, ih hys, hxe, hye]
      · by_cases hye : y.1 = e
        · simp [List.filter_cons, ih hys, hxe, hye]
        · simp [List.filter_cons, ih hys, hxe, hye]

theorem filter_sortCandidates (l : List Candidate) (e : ℚ) :
    (sortCandidates l).filter (fun c => decide (c.1 = e))
      = l.filter (fun c => decide (c.1 = e)) := by
  induction l with
  | nil => rfl
  | cons x xs ih =>
    have h1 : sortCandidates (x :: xs) = insertByErr x (sortCandidates xs) := rfl
    rw [h1, filter_insertByErr x (sortCandidates xs) e (sortCandidates_sorted xs),
      List.filter_cons, List.filter_cons, ih]

/-- C4: the candidate list returned by `solve()` is sorted in non-decreasing
order of total error, is a permutation of the discovery-order list, and the
sort is stable: for every error value, the candidates carrying it appear in
exactly their discovery (depth-first) order. -/
theorem c4_sorted_and_stable (sol : Solver) :
    (sol.solve).Pairwise (fun a b => a.1 ≤ b.1) ∧
    List.Perm sol.solve sol.discovered ∧
    ∀ e : ℚ, (sol.solve).filter (fun cand => decide (cand.1 = e))
      = (sol.discovered).filter (fun cand => decide (cand.1 = e)) :=
  ⟨sortCandidates_sorted _, sortCandidates_perm _,
    fun e => filter_sortCandidates _ e⟩

end EFind
